import Mathlib

/-!
Verification of the report-parsing core of the VGT pipeline
(`parse_stats_output` and the stats-extraction part of `calculate_mean_rms`
in `pipeline.py`), shallowly embedded in Lean.

Modelling conventions:
* Python strings are `List Char` (ASCII inputs; `String` wrappers at the API).
* Python numbers are a tagged sum `PyNum` of `ℤ` (Python `int`) and `ℚ`
  (Python `float`, modelled as the exact decimal rational denoted by the
  source token; every numeric literal appearing in the claims is exactly
  representable, so this is faithful for them).
* The ten regular expressions of `parse_stats_output` all have the shape
  `<literal label>\s+:\s+(<class>+)` with `<class>` either `[-\d\.eE\+]+`
  (seven fields) or `\d+` (three count fields).  Since the whitespace class,
  `:` and the value classes are pairwise disjoint, greedy matching never
  backtracks, so `re.search` is: at the leftmost position where the literal
  label occurs followed by whitespace⁺ `:` whitespace⁺ and a nonempty run of
  class characters, capture that maximal run.  `reSearch` implements exactly
  that.
* `dict` is an association list in insertion order; an uncaught Python
  exception is `Except.error`.
* File writes performed by `calculate_mean_rms` are modelled as the ordered
  list of `(path, contents)` pairs actually written before any exception.
-/

/-- ASCII whitespace matched by Python's `\s` and stripped by `str.strip()`. -/
def isSpace (c : Char) : Bool :=
  c = ' ' || c = '\t' || c = '\n' || c = '\r' || c = '\x0b' || c = '\x0c'

/-- The character class `[-\d\.eE\+]` of the seven general-value patterns. -/
def tokCharF (c : Char) : Bool :=
  c = '-' || c.isDigit || c = '.' || c = 'e' || c = 'E' || c = '+'

/-- Match a literal pattern at the head of the input; on success return the
remaining input. -/
def matchLead : List Char → List Char → Option (List Char)
  | [], l => some l
  | _ :: _, [] => none
  | p :: ps, c :: cs => if p = c then matchLead ps cs else none

/-- The part of each pattern after the literal label: `\s+:\s+(<class>+)`.
Returns the captured group. -/
def matchTail (cls : Char → Bool) (l : List Char) : Option (List Char) :=
  if (l.takeWhile isSpace).isEmpty then none
  else if (l.dropWhile isSpace).head? = some ':' then
    if (((l.dropWhile isSpace).tail).takeWhile isSpace).isEmpty then none
    else if ((((l.dropWhile isSpace).tail).dropWhile isSpace).takeWhile cls).isEmpty then none
    else some ((((l.dropWhile isSpace).tail).dropWhile isSpace).takeWhile cls)
  else none

/-- `re.search` for the fixed pattern shapes used by the code: try a full
match at each position from the left, returning the first captured group. -/
def reSearch (lab : List Char) (cls : Char → Bool) : List Char → Option (List Char)
  | [] => none
  | c :: t =>
    match (matchLead lab (c :: t)).bind (matchTail cls) with
    | some tok => some tok
    | none => reSearch lab cls t

/-- Python `str.strip()` (whitespace from both ends). -/
def pyStrip (l : List Char) : List Char :=
  ((l.dropWhile isSpace).reverse.dropWhile isSpace).reverse

/-- Value of a digit string (most significant first). -/
def digitsToNat (l : List Char) : Nat :=
  l.foldl (fun a c => a * 10 + (c.toNat - 48)) 0

/-- Python `int(s)` on a whitespace-free token: optional sign then a
nonempty digit run; anything else raises (`none`). -/
def pyInt (l : List Char) : Option ℤ :=
  match l with
  | [] => none
  | c :: r =>
    if c = '-' then
      if r.isEmpty then none
      else if r.all Char.isDigit then some (-(digitsToNat r : ℤ)) else none
    else if c = '+' then
      if r.isEmpty then none
      else if r.all Char.isDigit then some ((digitsToNat r : ℤ)) else none
    else if (c :: r).all Char.isDigit then some ((digitsToNat (c :: r) : ℤ)) else none

/-- Optional sign; returns (isNegative, rest). -/
def parseSign : List Char → Bool × List Char
  | '-' :: r => (true, r)
  | '+' :: r => (false, r)
  | l => (false, l)

/-- Exponent suffix of a Python float literal: empty, or `e`/`E`, optional
sign, nonempty digit run filling the rest of the token. -/
def parseExp : List Char → Option ℤ
  | [] => some 0
  | c :: r =>
    if c = 'e' || c = 'E' then
      let sr := parseSign r
      if sr.2.isEmpty then none
      else if sr.2.all Char.isDigit then
        some (if sr.1 then -(digitsToNat sr.2 : ℤ) else (digitsToNat sr.2 : ℤ))
      else none
    else none

/-- Python `float(s)` on a whitespace-free token: optional sign, then
`digit+ (. digit*)?` or `. digit+`, then an optional exponent; the exact
decimal value as a rational.  (`inf`/`nan` spellings cannot arise from the
token classes and are not modelled.) -/
def pyFloat (l : List Char) : Option ℚ :=
  let sl := parseSign l
  let ip := sl.2.takeWhile Char.isDigit
  let l2 := sl.2.dropWhile Char.isDigit
  let core : Option (ℕ × ℕ × List Char) :=
    match l2 with
    | '.' :: l3 =>
      let fp := l3.takeWhile Char.isDigit
      let l4 := l3.dropWhile Char.isDigit
      if ip.isEmpty && fp.isEmpty then none
      else some (digitsToNat ip * 10 ^ fp.length + digitsToNat fp, fp.length, l4)
    | _ => if ip.isEmpty then none else some (digitsToNat ip, 0, l2)
  core.bind (fun pr =>
    (parseExp pr.2.2).map (fun e =>
      let mant : ℤ := if sl.1 then -(Int.ofNat pr.1) else Int.ofNat pr.1
      if 0 ≤ e then mkRat (mant * (10 : ℤ) ^ e.toNat) (10 ^ pr.2.1)
      else mkRat mant (10 ^ pr.2.1 * 10 ^ (-e).toNat)))

/-- A Python numeric value: `int` or `float` (exact decimal rational). -/
inductive PyNum where
  | int : ℤ → PyNum
  | float : ℚ → PyNum
deriving DecidableEq, Repr

instance {ε α : Type} [DecidableEq ε] [DecidableEq α] : DecidableEq (Except ε α) :=
  fun a b =>
    match a, b with
    | .ok x, .ok y =>
      if h : x = y then .isTrue (by rw [h]) else .isFalse (fun hc => by cases hc; exact h rfl)
    | .error x, .error y =>
      if h : x = y then .isTrue (by rw [h]) else .isFalse (fun hc => by cases hc; exact h rfl)
    | .ok _, .error _ => .isFalse (fun hc => by cases hc)
    | .error _, .ok _ => .isFalse (fun hc => by cases hc)

/-- Lines 80-83 of `pipeline.py`: a token containing `.` or a
case-insensitive `e` is converted with `float`, otherwise with `int`
(`'e' in value.lower()` is: contains `e` or `E`). -/
def convertValue (v : List Char) : Option PyNum :=
  if v.contains '.' || v.contains 'e' || v.contains 'E' then
    (pyFloat v).map PyNum.float
  else
    (pyInt v).map PyNum.int

/-- One entry of the `patterns` dict: the dict key (which is also the
literal label text of the regex; note `No\.` escapes the period, so the
label of the last field is literally `No. of pixels excluded`) and whether
the value class is `\d+` (the three count fields) instead of `[-\d\.eE\+]+`. -/
structure FieldSpec where
  key : String
  intOnly : Bool
deriving DecidableEq, Repr

/-- The `patterns` dict of `parse_stats_output`, in declaration order. -/
def fields : List FieldSpec :=
  [⟨"Pixel sum", false⟩, ⟨"Pixel mean", false⟩, ⟨"Standard deviation", false⟩,
   ⟨"Skewness", false⟩, ⟨"Kurtosis", false⟩, ⟨"Minimum pixel value", false⟩,
   ⟨"Maximum pixel value", false⟩, ⟨"Total number of pixels", true⟩,
   ⟨"Number of pixels used", true⟩, ⟨"No. of pixels excluded", true⟩]

/-- The capture-group character class of a field's pattern. -/
def fieldCls (f : FieldSpec) : Char → Bool :=
  if f.intOnly then Char.isDigit else tokCharF

/-- `re.search(pattern, stats_output)` for one field's pattern, returning
`match.group(1)`. -/
def reSearchField (f : FieldSpec) (s : List Char) : Option (List Char) :=
  reSearch f.key.toList (fieldCls f) s

/-- The loop of `parse_stats_output` over a field list: search each pattern
in order; on a match, strip and convert the captured group, an unconvertible
token raising `ValueError` (modelled as `Except.error`); insert converted
values into the dict in field order. -/
def parseFields (s : List Char) : List FieldSpec → Except String (List (String × PyNum))
  | [] => .ok []
  | f :: fs =>
    match reSearchField f s with
    | none => parseFields s fs
    | some tok =>
      match convertValue (pyStrip tok) with
      | none => .error ("could not convert string: " ++ String.mk (pyStrip tok))
      | some v => (parseFields s fs).map (fun m => (f.key, v) :: m)

/-- `Pipeline.parse_stats_output` (pipeline.py lines 61-84). -/
def parse_stats_output (s : String) : Except String (List (String × PyNum)) :=
  parseFields s.toList fields

/-- Leftmost occurrence of `sep` in the input: returns the piece before it
and the remainder after it. -/
def splitOnce (sep : List Char) : List Char → Option (List Char × List Char)
  | [] => none
  | c :: t =>
    match matchLead sep (c :: t) with
    | some rest => some ([], rest)
    | none => (splitOnce sep t).map (fun pr => (c :: pr.1, pr.2))

/-- Fuelled worker for `str.split(sep)`; each step consumes at least
`sep.length ≥ 1` characters, so fuel `l.length + 1` never runs out. -/
def pySplitF (sep : List Char) : Nat → List Char → List (List Char)
  | 0, l => [l]
  | fuel + 1, l =>
    match splitOnce sep l with
    | none => [l]
    | some (pre, rest) => pre :: pySplitF sep fuel rest

/-- Python `str.split(sep)` for a nonempty separator. -/
def pySplit (sep l : List Char) : List (List Char) :=
  pySplitF sep (l.length + 1) l

/-- The separator string of `calculate_mean_rms` (line 107). -/
def SEPARATOR : String := "Pixel statistics for the NDF structure"

/-- Decimal rendering support: least `k` with `d ∣ 10 ^ k`, when one exists
up to `d`.  For every value produced by `pyFloat` the denominator divides a
power of ten, so the search succeeds. -/
def decExp (d : Nat) : Option Nat :=
  (List.range (d + 1)).find? (fun k => decide (d ∣ 10 ^ k))

/-- Left-pad a digit string with zeros to length `n`. -/
def padLeftZeros (s : List Char) (n : Nat) : List Char :=
  List.replicate (n - s.length) '0' ++ s

/-- `repr` of a Python float holding an exact short decimal: the minimal
decimal expansion, with `.0` appended to integral values — this is what
`json.dump` emits for the program's parsed floats. -/
def renderFloat (q : ℚ) : String :=
  match decExp q.den with
  | none => toString q.num ++ "/" ++ toString q.den
  | some 0 => toString q.num ++ ".0"
  | some (k + 1) =>
    let scaled : ℤ := q.num * (((10 ^ (k + 1) : ℕ) / q.den : ℕ) : ℤ)
    let ds := padLeftZeros (toString scaled.natAbs).toList (k + 2)
    let ipart := ds.take (ds.length - (k + 1))
    let fpart := ds.drop (ds.length - (k + 1))
    (if scaled < 0 then "-" else "") ++ String.mk ipart ++ "." ++ String.mk fpart

/-- JSON rendering of one numeric value (`json.dump`). -/
def renderNum : PyNum → String
  | .int n => toString n
  | .float q => renderFloat q

/-- One indented member line of the serialized record. -/
def entryLine (kv : String × PyNum) : String :=
  "  \"" ++ kv.1 ++ "\": " ++ renderNum kv.2

/-- The member lines of `json.dump(stats_dict, f, indent=2)`: each entry on
its own line, indented two spaces, separated by commas. -/
def jsonBody : List (String × PyNum) → String
  | [] => ""
  | [kv] => "  \"" ++ kv.1 ++ "\": " ++ renderNum kv.2
  | kv :: rest => "  \"" ++ kv.1 ++ "\": " ++ renderNum kv.2 ++ ",\n" ++ jsonBody rest

/-- `json.dump(stats_dict, f, indent=2)`: the full serialized object text. -/
def jsonDump (m : List (String × PyNum)) : String :=
  if m.isEmpty then "\x7b\x7d"
  else "\x7b\n" ++ jsonBody m ++ "\n\x7d"

/-- The three destination paths of `calculate_mean_rms` (lines 111-115);
`os.path.join` modelled for plain relative components. -/
def stats_files (output_path : String) : List String :=
  [output_path ++ "/noisemap_stats.json",
   output_path ++ "/1kms_error_stats.json",
   output_path ++ "/1kms_noisemap_stats.json"]

/-- The write loop of `calculate_mean_rms` (lines 116-120): for each
(section, destination) pair in order, parse then write; a parse exception
aborts the loop, keeping the writes already made. -/
def writeLoop : List (List Char × String) → List (String × String) × Option String
  | [] => ([], none)
  | (blk, file) :: rest =>
    match parseFields blk fields with
    | .error e => ([], some e)
    | .ok m =>
      let nxt := writeLoop rest
      ((file, jsonDump m) :: nxt.1, nxt.2)

/-- The stats-extraction core of `Pipeline.calculate_mean_rms` (lines
107-120), from the captured subprocess output onwards: split on the
separator, require at least four pieces, parse sections `[1:4]` and write
one JSON record per destination.  Result: the `(path, contents)` writes
performed, and the raised exception's message if any. -/
def calculate_mean_rms (output_path full_output : String) :
    List (String × String) × Option String :=
  let blocks := pySplit SEPARATOR.toList full_output.toList
  if blocks.length < 4 then
    ([], some "Unexpected output format: not enough stats blocks found.")
  else
    writeLoop (((blocks.drop 1).take 3).zip (stats_files output_path))

/-! ## Helper lemmas -/

theorem matchLead_append (p r : List Char) : matchLead p (p ++ r) = some r := by
  induction p with
  | nil => rfl
  | cons a t ih => simp [matchLead, ih]

theorem takeWhile_all_append (p : Char → Bool) (w r : List Char)
    (hw : ∀ c ∈ w, p c = true) (hr : ∀ x, r.head? = some x → p x = false) :
    (w ++ r).takeWhile p = w ∧ (w ++ r).dropWhile p = r := by
  induction w with
  | nil =>
    cases r with
    | nil => simp
    | cons x t => simp [List.takeWhile, List.dropWhile, hr x rfl]
  | cons a t ih =>
    have ha : p a = true := hw a (List.mem_cons_self a t)
    have ih' := ih (fun c hc => hw c (List.mem_cons_of_mem a hc))
    simp [List.takeWhile, List.dropWhile, ha, ih'.1, ih'.2]

theorem takeWhile_all (p : Char → Bool) (w : List Char) (hw : ∀ c ∈ w, p c = true) :
    w.takeWhile p = w := by
  have := (takeWhile_all_append p w [] hw (by intro x hx; simp at hx)).1
  simpa using this

theorem fieldCls_not_space (f : FieldSpec) (c : Char) (h : fieldCls f c = true) :
    isSpace c = false := by
  by_contra hs
  have hs' : isSpace c = true := by
    cases h' : isSpace c with
    | false => exact absurd h' hs
    | true => rfl
  have : c = ' ' ∨ c = '\t' ∨ c = '\n' ∨ c = '\r' ∨ c = '\x0b' ∨ c = '\x0c' := by
    simp [isSpace] at hs'
    tauto
  rcases this with rfl | rfl | rfl | rfl | rfl | rfl <;>
    · revert h
      unfold fieldCls
      cases f.intOnly <;> decide

/-- Every captured group is a nonempty run of its class characters. -/
theorem matchTail_token (cls : Char → Bool) (l tok : List Char)
    (h : matchTail cls l = some tok) : tok ≠ [] ∧ ∀ c ∈ tok, cls c = true := by
  unfold matchTail at h
  split_ifs at h with h1 hc h2 h3
  all_goals
    first
    | exact Option.noConfusion h
    | (simp only [Option.some.injEq] at h
       refine ⟨fun hnil => ?_, fun c hc2 => ?_⟩
       · rw [h, hnil] at h3
         exact h3 rfl
       · rw [← h] at hc2
         exact List.mem_takeWhile_imp hc2)

theorem reSearch_token (lab : List Char) (cls : Char → Bool) (s tok : List Char)
    (h : reSearch lab cls s = some tok) : tok ≠ [] ∧ ∀ c ∈ tok, cls c = true := by
  induction s with
  | nil => simp [reSearch] at h
  | cons c t ih =>
    rw [reSearch] at h
    cases hm : (matchLead lab (c :: t)).bind (matchTail cls) with
    | some t2 =>
      rw [hm] at h
      simp only [Option.some.injEq] at h
      rcases Option.bind_eq_some.mp hm with ⟨rest, _, htail⟩
      rw [← h]
      exact matchTail_token cls rest t2 htail
    | none =>
      rw [hm] at h
      exact ih h

theorem pyStrip_of_cls (f : FieldSpec) (l : List Char)
    (h : ∀ c ∈ l, fieldCls f c = true) : pyStrip l = l := by
  have hns : ∀ c ∈ l, isSpace c = false := fun c hc => fieldCls_not_space f c (h c hc)
  have h1 : l.dropWhile isSpace = l := by
    cases l with
    | nil => rfl
    | cons a t => simp [List.dropWhile, hns a (List.mem_cons_self a t)]
  have h2 : l.reverse.dropWhile isSpace = l.reverse := by
    cases hr : l.reverse with
    | nil => rfl
    | cons a t =>
      have ha : a ∈ l := by
        have : a ∈ l.reverse := by rw [hr]; exact List.mem_cons_self a t
        simpa using this
      simp [List.dropWhile, hns a ha]
  unfold pyStrip
  rw [h1, h2, List.reverse_reverse]

theorem matchLead_length (p : List Char) :
    ∀ l r : List Char, matchLead p l = some r → r.length + p.length = l.length := by
  induction p with
  | nil => intro l r h; simp [matchLead] at h; simp [h]
  | cons a t ih =>
    intro l r h
    cases l with
    | nil => simp [matchLead] at h
    | cons c cs =>
      by_cases hac : a = c
      · rw [matchLead, if_pos hac] at h
        have := ih cs r h
        simp [List.length_cons]
        omega
      · rw [matchLead, if_neg hac] at h
        exact absurd h (by simp)

theorem lookup_eq_none_of_not_mem (k : String) (m : List (String × PyNum))
    (h : k ∉ m.map Prod.fst) : m.lookup k = none := by
  induction m with
  | nil => rfl
  | cons a t ih =>
    obtain ⟨k', v⟩ := a
    simp only [List.map_cons, List.mem_cons] at h
    push_neg at h
    have hne : (k == k') = false := beq_eq_false_iff_ne.mpr h.1
    simp [List.lookup, hne, ih h.2]

/-- The keys of a parse result are a sublist of the field keys in
declaration order. -/
theorem parseFields_keys (s : List Char) (fl : List FieldSpec)
    (m : List (String × PyNum)) (h : parseFields s fl = .ok m) :
    (m.map Prod.fst).Sublist (fl.map FieldSpec.key) := by
  induction fl generalizing m with
  | nil =>
    simp only [parseFields] at h
    cases h
    simp
  | cons f fs ih =>
    rw [parseFields] at h
    cases hr : reSearchField f s with
    | none =>
      simp only [hr] at h
      exact (ih m h).cons f.key
    | some tok =>
      cases hv : convertValue (pyStrip tok) with
      | none =>
        simp only [hr, hv] at h
        exact Except.noConfusion h
      | some v =>
        cases hp : parseFields s fs with
        | error e =>
          simp only [hr, hv, hp, Except.map] at h
          exact Except.noConfusion h
        | ok m' =>
          simp only [hr, hv, hp, Except.map, Except.ok.injEq] at h
          rw [← h]
          simp only [List.map_cons]
          exact (ih m' hp).cons₂ f.key

/-- Lookup in a parse result is exactly: search the field's pattern, then
convert the stripped captured group. -/
theorem parseFields_lookup (s : List Char) (fl : List FieldSpec)
    (hnd : (fl.map FieldSpec.key).Nodup) (f : FieldSpec) (hf : f ∈ fl)
    (m : List (String × PyNum)) (h : parseFields s fl = .ok m) :
    m.lookup f.key = (reSearchField f s).bind (fun tok => convertValue (pyStrip tok)) := by
  induction fl generalizing m with
  | nil => simp at hf
  | cons g fs ih =>
    rw [parseFields] at h
    have hnd1 : g.key ∉ fs.map FieldSpec.key := by
      rw [List.map_cons, List.nodup_cons] at hnd
      exact hnd.1
    have hnd2 : (fs.map FieldSpec.key).Nodup := by
      rw [List.map_cons, List.nodup_cons] at hnd
      exact hnd.2
    rcases List.mem_cons.mp hf with rfl | hf'
    · cases hr : reSearchField f s with
      | none =>
        simp only [hr] at h
        have hsub := parseFields_keys s fs m h
        have hnm : f.key ∉ m.map Prod.fst := fun hm => hnd1 (hsub.subset hm)
        rw [lookup_eq_none_of_not_mem _ _ hnm]
        rfl
      | some tok =>
        cases hv : convertValue (pyStrip tok) with
        | none =>
          simp only [hr, hv] at h
          exact Except.noConfusion h
        | some v =>
          cases hp : parseFields s fs with
          | error e =>
            simp only [hr, hv, hp, Except.map] at h
            exact Except.noConfusion h
          | ok m' =>
            simp only [hr, hv, hp, Except.map, Except.ok.injEq] at h
            rw [← h]
            simp [List.lookup, hv]
    · have hkey : f.key ≠ g.key := by
        intro he
        exact hnd1 (he ▸ List.mem_map.mpr ⟨f, hf', rfl⟩)
      cases hr : reSearchField g s with
      | none =>
        simp only [hr] at h
        exact ih hnd2 hf' m h
      | some tok =>
        cases hv : convertValue (pyStrip tok) with
        | none =>
          simp only [hr, hv] at h
          exact Except.noConfusion h
        | some v =>
          cases hp : parseFields s fs with
          | error e =>
            simp only [hr, hv, hp, Except.map] at h
            exact Except.noConfusion h
          | ok m' =>
            simp only [hr, hv, hp, Except.map, Except.ok.injEq] at h
            rw [← h]
            have hbeq : (f.key == g.key) = false := beq_eq_false_iff_ne.mpr hkey
            simp only [List.lookup, hbeq]
            exact ih hnd2 hf' m' hp

/-- Absent labels alone never raise: if every matched token converts, the
parse succeeds. -/
theorem parseFields_ok (s : List Char) (fl : List FieldSpec)
    (h : ∀ g ∈ fl, ∀ tok, reSearchField g s = some tok →
      (convertValue (pyStrip tok)).isSome) :
    ∃ m, parseFields s fl = .ok m := by
  induction fl with
  | nil => exact ⟨[], rfl⟩
  | cons g fs ih =>
    obtain ⟨m, hm⟩ := ih (fun g' hg' => h g' (List.mem_cons_of_mem _ hg'))
    cases hr : reSearchField g s with
    | none =>
      refine ⟨m, ?_⟩
      rw [parseFields]
      simp only [hr]
      exact hm
    | some tok =>
      have hsome := h g (List.mem_cons_self _ _) tok hr
      cases hv : convertValue (pyStrip tok) with
      | none => rw [hv] at hsome; exact absurd hsome (by simp)
      | some v =>
        refine ⟨(g.key, v) :: m, ?_⟩
        rw [parseFields]
        simp only [hr, hv, hm, Except.map]

theorem splitOnce_length_lt (sep : List Char) (hs : sep ≠ []) :
    ∀ l pre rest : List Char, splitOnce sep l = some (pre, rest) →
      rest.length < l.length := by
  intro l
  induction l with
  | nil => intro pre rest h; simp [splitOnce] at h
  | cons c t ih =>
    intro pre rest h
    rw [splitOnce] at h
    cases hm : matchLead sep (c :: t) with
    | some r =>
      rw [hm] at h
      simp only [Option.some.injEq, Prod.mk.injEq] at h
      obtain ⟨hpre, hrest⟩ := h
      have hlen := matchLead_length sep (c :: t) r hm
      have hsl : 1 ≤ sep.length := by
        cases sep with
        | nil => exact absurd rfl hs
        | cons _ _ => simp
      rw [← hrest]
      simp only [List.length_cons] at hlen ⊢
      omega
    | none =>
      rw [hm] at h
      simp only [Option.map_eq_some'] at h
      rcases h with ⟨⟨p', r'⟩, hsp, heq⟩
      have hlt := ih p' r' hsp
      have h2 : r' = rest := by
        have := congrArg Prod.snd heq
        simpa using this
      rw [h2] at hlt
      simp only [List.length_cons]
      omega

/-- The fuel used by `pySplit` is irrelevant as soon as it exceeds the
input length: each round consumes at least one character. -/
theorem pySplitF_fuel_high (sep : List Char) (hs : sep ≠ []) :
    ∀ f1 : Nat, ∀ l : List Char, ∀ f2 : Nat, l.length < f1 → l.length < f2 →
      pySplitF sep f1 l = pySplitF sep f2 l := by
  intro f1
  induction f1 with
  | zero => intro l f2 h1 _; exact absurd h1 (Nat.not_lt_zero _)
  | succ a ih =>
    intro l f2 h1 h2
    cases f2 with
    | zero => exact absurd h2 (Nat.not_lt_zero _)
    | succ b =>
      cases hsp : splitOnce sep l with
      | none => simp only [pySplitF, hsp]
      | some pr =>
        obtain ⟨pre, rest⟩ := pr
        have hlt := splitOnce_length_lt sep hs l pre rest hsp
        simp only [pySplitF, hsp]
        rw [ih rest b (by omega) (by omega)]


theorem fields_keys_nodup : (fields.map FieldSpec.key).Nodup := by decide

theorem contains_eq_false_of_not_mem (l : List Char) (a : Char) (h : a ∉ l) :
    l.contains a = false := by
  induction l with
  | nil => rfl
  | cons b t ih =>
    simp only [List.mem_cons] at h
    push_neg at h
    have hb : (a == b) = false := beq_eq_false_iff_ne.mpr h.1
    rw [List.contains_cons, hb, ih h.2]
    rfl

theorem pyInt_digits (l : List Char) (hne : l ≠ []) (hd : ∀ c ∈ l, Char.isDigit c = true) :
    pyInt l = some (Int.ofNat (digitsToNat l)) := by
  cases l with
  | nil => exact absurd rfl hne
  | cons c r =>
    have hc : c.isDigit = true := hd c (List.mem_cons_self _ _)
    have hc1 : ¬(c = '-') := fun he => by rw [he] at hc; exact absurd hc (by decide)
    have hc2 : ¬(c = '+') := fun he => by rw [he] at hc; exact absurd hc (by decide)
    have hall : (c :: r).all Char.isDigit = true := List.all_eq_true.mpr hd
    simp [pyInt, hc1, hc2, hall]

theorem convertValue_digits (l : List Char) (hne : l ≠ []) (hd : ∀ c ∈ l, Char.isDigit c = true) :
    convertValue l = some (PyNum.int (Int.ofNat (digitsToNat l))) := by
  have hdot : l.contains '.' = false := contains_eq_false_of_not_mem l '.'
    (fun hm => absurd (hd '.' hm) (by decide))
  have he : l.contains 'e' = false := contains_eq_false_of_not_mem l 'e'
    (fun hm => absurd (hd 'e' hm) (by decide))
  have hE : l.contains 'E' = false := contains_eq_false_of_not_mem l 'E'
    (fun hm => absurd (hd 'E' hm) (by decide))
  rw [convertValue, hdot, he, hE]
  simp [pyInt_digits l hne hd]

/-! ## Claim theorems -/

/-- Claim C2: `parse_stats_output` classifies a matched token purely by its
lexical form — a token containing a decimal point or a case-insensitive `e`
is parsed as floating-point, otherwise as integer — and on the four law
instances: token `42` gives integer 42, `42.0` gives float 42.0, `1.5E+03`
gives float 1500.0, `-7` gives integer -7. -/
theorem numeric_typing_law :
    (∀ tok v, convertValue tok = some v →
      ((∃ q, v = PyNum.float q) ↔
        (tok.contains '.' || tok.contains 'e' || tok.contains 'E') = true)) ∧
    parse_stats_output "Pixel sum : 42" = .ok [("Pixel sum", PyNum.int 42)] ∧
    parse_stats_output "Pixel sum : 42.0" = .ok [("Pixel sum", PyNum.float 42)] ∧
    parse_stats_output "Pixel sum : 1.5E+03" = .ok [("Pixel sum", PyNum.float 1500)] ∧
    parse_stats_output "Pixel sum : -7" = .ok [("Pixel sum", PyNum.int (-7))] := by
  refine ⟨?_, by rfl, by decide, by decide, by rfl⟩
  intro tok v hv
  unfold convertValue at hv
  by_cases hc : (tok.contains '.' || tok.contains 'e' || tok.contains 'E') = true
  · rw [if_pos hc] at hv
    rcases Option.map_eq_some'.mp hv with ⟨q, _, hq⟩
    exact ⟨fun _ => hc, fun _ => ⟨q, hq.symm⟩⟩
  · rw [if_neg hc] at hv
    rcases Option.map_eq_some'.mp hv with ⟨n, _, hn⟩
    constructor
    · rintro ⟨q, hq⟩
      rw [← hn] at hq
      exact PyNum.noConfusion hq
    · intro hcc
      exact absurd hcc hc

/-- Claim C2 witness: the typing law applied to the concrete token `42.0`,
which converts to the float 42.0. -/
theorem numeric_typing_law_witness :
    (∃ q, PyNum.float (42 : ℚ) = PyNum.float q) ↔
      (("42.0".toList.contains '.' || "42.0".toList.contains 'e' ||
        "42.0".toList.contains 'E') = true) :=
  numeric_typing_law.1 "42.0".toList (PyNum.float 42) (by decide)

/-- Claim C3 (code bug evidence): the conversion-failure branch is
reachable.  The character class `[-\d\.eE\+]+` matches the bare token `e`
after `Pixel sum :`, and `float("e")` raises `ValueError`, so
`parse_stats_output` raises instead of returning a mapping. -/
theorem conversion_failure_reachable :
    parse_stats_output "Pixel sum : e" = .error "could not convert string: e" := by rfl

/-- Claim C7: `parse_stats_output` is a pure, deterministic function of its
input string — equal inputs give equal results (idempotence of parsing). -/
theorem parse_deterministic (s t : String) (h : s = t) :
    parse_stats_output s = parse_stats_output t := by rw [h]

/-- Claim C7 witness: determinism at a concrete input. -/
theorem parse_deterministic_witness :
    parse_stats_output "Pixel mean : 3" = parse_stats_output "Pixel mean : 3" :=
  parse_deterministic "Pixel mean : 3" "Pixel mean : 3" rfl


/-- Claim C1: for each of the ten fields, a parse result binds that field's
key exactly when the field's pattern matches in the input, to the converted
value of the captured token; a key is absent exactly when the label pattern
is not found, and label absence alone never raises (only an unconvertible
matched token does). -/
theorem parse_field_presence (f : FieldSpec) (hf : f ∈ fields) (s : String) :
    (∀ m, parse_stats_output s = .ok m →
      m.lookup f.key =
        (reSearchField f s.toList).bind (fun tok => convertValue (pyStrip tok))) ∧
    ((∀ g ∈ fields, ∀ tok, reSearchField g s.toList = some tok →
        (convertValue (pyStrip tok)).isSome) →
      ∃ m, parse_stats_output s = .ok m) := by
  constructor
  · intro m hm
    exact parseFields_lookup s.toList fields fields_keys_nodup f hf m hm
  · intro h
    exact parseFields_ok s.toList fields h

/-- Claim C1 witness: at the input `Pixel sum : 42`, the parse result binds
`Pixel sum` to the converted captured token. -/
theorem parse_field_presence_witness :
    List.lookup "Pixel sum" [("Pixel sum", PyNum.int 42)] =
      (reSearchField ⟨"Pixel sum", false⟩ "Pixel sum : 42".toList).bind
        (fun tok => convertValue (pyStrip tok)) :=
  (parse_field_presence ⟨"Pixel sum", false⟩ (by decide) "Pixel sum : 42").1
    [("Pixel sum", PyNum.int 42)] (by rfl)

/-- Claim C10: whenever one of the three count fields (`Total number of
pixels`, `Number of pixels used`, `No. of pixels excluded`) is present in a
parse result, its value is a non-negative integer (these patterns capture
only unsigned digit runs). -/
theorem count_fields_nonneg (s : String) (m : List (String × PyNum))
    (hok : parse_stats_output s = .ok m) (k : String)
    (hk : k = "Total number of pixels" ∨ k = "Number of pixels used" ∨
      k = "No. of pixels excluded")
    (v : PyNum) (hv : m.lookup k = some v) :
    ∃ n : ℤ, v = PyNum.int n ∧ 0 ≤ n := by
  have main : ∀ f : FieldSpec, f ∈ fields → f.intOnly = true → f.key = k →
      ∃ n : ℤ, v = PyNum.int n ∧ 0 ≤ n := by
    intro f hfm hio hkey
    have hlk := parseFields_lookup s.toList fields fields_keys_nodup f hfm m hok
    rw [hkey, hv] at hlk
    rcases Option.bind_eq_some.mp hlk.symm with ⟨tok, hsr, hconv⟩
    have htok := reSearch_token f.key.toList (fieldCls f) s.toList tok hsr
    have hdig : ∀ c ∈ tok, Char.isDigit c = true := by
      intro c hc
      have := htok.2 c hc
      rw [fieldCls, hio] at this
      simpa using this
    have hstrip : pyStrip tok = tok := by
      apply pyStrip_of_cls f
      intro c hc
      rw [fieldCls, hio]
      simpa using hdig c hc
    rw [hstrip, convertValue_digits tok htok.1 hdig] at hconv
    refine ⟨Int.ofNat (digitsToNat tok), ?_, Int.ofNat_nonneg _⟩
    cases hconv
    rfl
  rcases hk with rfl | rfl | rfl
  · exact main ⟨"Total number of pixels", true⟩ (by decide) rfl rfl
  · exact main ⟨"Number of pixels used", true⟩ (by decide) rfl rfl
  · exact main ⟨"No. of pixels excluded", true⟩ (by decide) rfl rfl

/-- Claim C10 witness: at a concrete input the count field holds a
non-negative integer. -/
theorem count_fields_nonneg_witness :
    ∃ n : ℤ, PyNum.int 9 = PyNum.int n ∧ 0 ≤ n :=
  count_fields_nonneg "Total number of pixels : 9"
    [("Total number of pixels", PyNum.int 9)] (by rfl)
    "Total number of pixels" (Or.inl rfl) (PyNum.int 9) (by decide)


/-- Claim C5: a blob whose split yields fewer than four pieces makes
`calculate_mean_rms` raise the malformed-report error before any write, so
zero records are persisted. -/
theorem malformed_blob_error (p blob : String)
    (h : (pySplit SEPARATOR.toList blob.toList).length < 4) :
    calculate_mean_rms p blob =
      ([], some "Unexpected output format: not enough stats blocks found.") := by
  unfold calculate_mean_rms
  rw [if_pos h]

/-- Claim C5 witness: a blob with no separators aborts with zero writes. -/
theorem malformed_blob_error_witness :
    calculate_mean_rms "out" "stats preamble only" =
      ([], some "Unexpected output format: not enough stats blocks found.") :=
  malformed_blob_error "out" "stats preamble only" (by decide)

/-- Unfolding step for `reSearch` on a nonempty input. -/
theorem reSearch_cons (lab : List Char) (cls : Char → Bool) (c : Char) (t : List Char) :
    reSearch lab cls (c :: t) =
      match (matchLead lab (c :: t)).bind (matchTail cls) with
      | some tok => some tok
      | none => reSearch lab cls t := rfl

/-- Claim C6: the period in the label `No. of pixels excluded` is escaped,
hence literal: with the true label the field is extracted, and with the
period replaced by any other character the field's pattern does not match,
so its key is absent from any returned mapping. -/
theorem literal_period_label (c : Char) (hc : c ≠ '.') :
    parse_stats_output "No. of pixels excluded : 5" =
      .ok [("No. of pixels excluded", PyNum.int 5)] ∧
    (∀ m, parse_stats_output
        (String.mk ('N' :: 'o' :: c :: " of pixels excluded : 5".toList)) = .ok m →
      m.lookup "No. of pixels excluded" = none) := by
  refine ⟨by rfl, ?_⟩
  intro m hm
  have hlk := parseFields_lookup
    (String.mk ('N' :: 'o' :: c :: " of pixels excluded : 5".toList)).toList fields
    fields_keys_nodup ⟨"No. of pixels excluded", true⟩ (by decide) m hm
  have hnone : reSearchField ⟨"No. of pixels excluded", true⟩
      (String.mk ('N' :: 'o' :: c :: " of pixels excluded : 5".toList)).toList = none := by
    show reSearch ('N' :: 'o' :: '.' :: " of pixels excluded".toList) Char.isDigit
      ('N' :: 'o' :: c :: " of pixels excluded : 5".toList) = none
    rw [reSearch_cons]
    have h1 : matchLead ('N' :: 'o' :: '.' :: " of pixels excluded".toList)
        ('N' :: 'o' :: c :: " of pixels excluded : 5".toList) = none := by
      simp [matchLead, Ne.symm hc]
    rw [h1]
    show reSearch ('N' :: 'o' :: '.' :: " of pixels excluded".toList) Char.isDigit
      ('o' :: c :: " of pixels excluded : 5".toList) = none
    rw [reSearch_cons]
    have h2 : matchLead ('N' :: 'o' :: '.' :: " of pixels excluded".toList)
        ('o' :: c :: " of pixels excluded : 5".toList) = none := by
      simp [matchLead]
    rw [h2]
    show reSearch ('N' :: 'o' :: '.' :: " of pixels excluded".toList) Char.isDigit
      (c :: " of pixels excluded : 5".toList) = none
    rw [reSearch_cons]
    by_cases hN : ('N' : Char) = c
    · rw [← hN]
      decide
    · have h3 : matchLead ('N' :: 'o' :: '.' :: " of pixels excluded".toList)
          (c :: " of pixels excluded : 5".toList) = none := by
        simp [matchLead, hN]
      rw [h3]
      show reSearch ('N' :: 'o' :: '.' :: " of pixels excluded".toList) Char.isDigit
        " of pixels excluded : 5".toList = none
      decide
  rw [hlk, hnone]
  rfl

/-- Claim C6 witness: with `X` in place of the period the field is absent. -/
theorem literal_period_label_witness :
    List.lookup "No. of pixels excluded" ([] : List (String × PyNum)) = none :=
  (literal_period_label 'X' (by decide)).2 [] (by rfl)


theorem matchLead_cons_self (a : Char) (l r : List Char) :
    matchLead (a :: l) (a :: (l ++ r)) = some r := by
  show (if a = a then matchLead l (l ++ r) else none) = some r
  rw [if_pos rfl]
  exact matchLead_append l r

/-- A full pattern match at position zero wins the search. -/
theorem reSearch_label_start (a : Char) (l' : List Char) (cls : Char → Bool)
    (rest tok : List Char) (h : matchTail cls rest = some tok) :
    reSearch (a :: l') cls ((a :: l') ++ rest) = some tok := by
  have he : (a :: l') ++ rest = a :: (l' ++ rest) := rfl
  rw [he, reSearch_cons, show matchLead (a :: l') (a :: (l' ++ rest)) = some rest from
    matchLead_cons_self a l' rest]
  simp [h]

/-- The tail pattern `\s+:\s+(<class>+)` accepts any nonempty whitespace
runs around the colon and captures exactly the following class run. -/
theorem matchTail_build (cls : Char → Bool) (w1 w2 tok : List Char)
    (hw1 : w1 ≠ []) (hw1s : ∀ c ∈ w1, isSpace c = true)
    (hw2 : w2 ≠ []) (hw2s : ∀ c ∈ w2, isSpace c = true)
    (ht : tok ≠ []) (htc : ∀ c ∈ tok, cls c = true)
    (hts : ∀ c ∈ tok, isSpace c = false) :
    matchTail cls (w1 ++ ':' :: (w2 ++ tok)) = some tok := by
  have hA := takeWhile_all_append isSpace w1 (':' :: (w2 ++ tok)) hw1s
    (by intro x hx
        simp only [List.head?_cons, Option.some.injEq] at hx
        rw [← hx]
        decide)
  have hB := takeWhile_all_append isSpace w2 tok hw2s
    (by intro x hx
        cases tok with
        | nil => exact absurd rfl ht
        | cons tc tt =>
          simp only [List.head?_cons, Option.some.injEq] at hx
          rw [← hx]
          exact hts tc (List.mem_cons_self _ _))
  have hw1e : w1.isEmpty = false := by
    cases w1 with
    | nil => exact absurd rfl hw1
    | cons _ _ => rfl
  have hw2e : w2.isEmpty = false := by
    cases w2 with
    | nil => exact absurd rfl hw2
    | cons _ _ => rfl
  have htoke : tok.isEmpty = false := by
    cases tok with
    | nil => exact absurd rfl ht
    | cons _ _ => rfl
  unfold matchTail
  simp [hA.1, hA.2, hB.1, hB.2, hw1e, hw2e, htoke, takeWhile_all cls tok htc]

/-- Claim C8: matching is whitespace-tolerant around the colon — for any
nonempty whitespace runs `w1` (between label and colon) and `w2` (between
colon and value), the field's pattern captures exactly the value token, so
the extracted value does not depend on the amount of whitespace. -/
theorem whitespace_tolerant (f : FieldSpec) (hf : f ∈ fields) (w1 w2 tok : List Char)
    (hw1 : w1 ≠ []) (hw1s : ∀ c ∈ w1, isSpace c = true)
    (hw2 : w2 ≠ []) (hw2s : ∀ c ∈ w2, isSpace c = true)
    (ht : tok ≠ []) (htc : ∀ c ∈ tok, fieldCls f c = true) :
    reSearchField f (f.key.toList ++ (w1 ++ ':' :: (w2 ++ tok))) = some tok ∧
    ∀ m, parseFields (f.key.toList ++ (w1 ++ ':' :: (w2 ++ tok))) fields = .ok m →
      m.lookup f.key = convertValue (pyStrip tok) := by
  have hts : ∀ c ∈ tok, isSpace c = false := fun c hc => fieldCls_not_space f c (htc c hc)
  have htail := matchTail_build (fieldCls f) w1 w2 tok hw1 hw1s hw2 hw2s ht htc hts
  have hkeys : ∀ g ∈ fields, g.key.toList ≠ [] := by decide
  have hkey : f.key.toList ≠ [] := hkeys f hf
  obtain ⟨a, l', hk⟩ : ∃ a l', f.key.toList = a :: l' := by
    cases hkf : f.key.toList with
    | nil => exact absurd hkf hkey
    | cons a l' => exact ⟨a, l', rfl⟩
  have hsearch : reSearchField f (f.key.toList ++ (w1 ++ ':' :: (w2 ++ tok))) = some tok := by
    unfold reSearchField
    rw [hk]
    exact reSearch_label_start a l' (fieldCls f) _ tok htail
  refine ⟨hsearch, ?_⟩
  intro m hm
  have hlk := parseFields_lookup _ fields fields_keys_nodup f hf m hm
  rw [hlk, hsearch]
  rfl

/-- Claim C8 witness: two spaces before the colon and a tab after it still
capture the token `42` for `Pixel sum`. -/
theorem whitespace_tolerant_witness :
    reSearchField ⟨"Pixel sum", false⟩
      ("Pixel sum".toList ++ ([' ', ' '] ++ ':' :: (['\t'] ++ "42".toList))) =
      some "42".toList :=
  (whitespace_tolerant ⟨"Pixel sum", false⟩ (by decide) [' ', ' '] ['\t'] "42".toList
    (by decide) (by decide) (by decide) (by decide) (by decide) (by decide)).1


/-- Claim C4: a blob splitting into a preamble plus at least three report
sections yields exactly three parsed records, order-preserved, routed to
the three destinations in input order; sections beyond the third
(`rest` here) are silently dropped, not an error. -/
theorem split_three_sections (p blob : String) (b0 b1 b2 b3 : List Char)
    (rest : List (List Char)) (m1 m2 m3 : List (String × PyNum))
    (hsplit : pySplit SEPARATOR.toList blob.toList = b0 :: b1 :: b2 :: b3 :: rest)
    (h1 : parseFields b1 fields = .ok m1) (h2 : parseFields b2 fields = .ok m2)
    (h3 : parseFields b3 fields = .ok m3) :
    calculate_mean_rms p blob =
      ([(p ++ "/noisemap_stats.json", jsonDump m1),
        (p ++ "/1kms_error_stats.json", jsonDump m2),
        (p ++ "/1kms_noisemap_stats.json", jsonDump m3)], none) := by
  have hlen : ¬((b0 :: b1 :: b2 :: b3 :: rest).length < 4) := by
    simp only [List.length_cons]
    omega
  simp only [calculate_mean_rms, hsplit]
  rw [if_neg hlen]
  show writeLoop [(b1, p ++ "/noisemap_stats.json"), (b2, p ++ "/1kms_error_stats.json"),
    (b3, p ++ "/1kms_noisemap_stats.json")] = _
  simp only [writeLoop, h1, h2, h3]

set_option maxRecDepth 4000 in
/-- Claim C4 witness: a blob with a preamble and four sections writes
exactly the first three parsed records and drops the fourth section. -/
theorem split_three_sections_witness :
    calculate_mean_rms "out"
      ("head" ++ SEPARATOR ++ " Pixel sum : 2" ++ SEPARATOR ++ " Skewness : -0.5" ++
        SEPARATOR ++ " junk" ++ SEPARATOR ++ " dropped") =
      ([("out" ++ "/noisemap_stats.json", jsonDump [("Pixel sum", PyNum.int 2)]),
        ("out" ++ "/1kms_error_stats.json", jsonDump [("Skewness", PyNum.float (mkRat (-5) 10))]),
        ("out" ++ "/1kms_noisemap_stats.json", jsonDump [])], none) :=
  split_three_sections "out"
    ("head" ++ SEPARATOR ++ " Pixel sum : 2" ++ SEPARATOR ++ " Skewness : -0.5" ++
      SEPARATOR ++ " junk" ++ SEPARATOR ++ " dropped")
    "head".toList " Pixel sum : 2".toList " Skewness : -0.5".toList " junk".toList
    [" dropped".toList]
    [("Pixel sum", PyNum.int 2)] [("Skewness", PyNum.float (mkRat (-5) 10))] []
    (by decide) (by decide) (by decide) (by decide)

theorem strToList_append (a b : String) : (a ++ b).toList = a.toList ++ b.toList := by
  cases a
  cases b
  rfl

theorem str_append_assoc (a b c : String) : a ++ b ++ c = a ++ (b ++ c) := by
  cases a with
  | mk da =>
    cases b with
    | mk db =>
      cases c with
      | mk dc =>
        show String.mk (da ++ db ++ dc) = String.mk (da ++ (db ++ dc))
        rw [List.append_assoc]

/-- Every record written by the write loop is the serialization of some
successfully parsed mapping. -/
theorem writeLoop_writes (xs : List (List Char × String)) :
    ∀ pr ∈ (writeLoop xs).1, ∃ m blk, parseFields blk fields = .ok m ∧
      pr.2 = jsonDump m := by
  induction xs with
  | nil => intro pr hpr; simp [writeLoop] at hpr
  | cons x rest ih =>
    obtain ⟨blk, file⟩ := x
    intro pr hpr
    cases hp : parseFields blk fields with
    | error e =>
      rw [writeLoop] at hpr
      simp only [hp] at hpr
      simp at hpr
    | ok m =>
      rw [writeLoop] at hpr
      simp only [hp] at hpr
      rcases List.mem_cons.mp hpr with rfl | h'
      · exact ⟨m, blk, hp, rfl⟩
      · exact ih pr h'

/-- The member lines of a nonempty serialized record, in mapping order. -/
theorem entry_occurs_body (m : List (String × PyNum)) (kv : String × PyNum) (h : kv ∈ m) :
    ∃ s t : List Char, (jsonBody m).toList = s ++ ((entryLine kv).toList ++ t) := by
  induction m with
  | nil => simp at h
  | cons a rest ih =>
    rcases List.mem_cons.mp h with rfl | h'
    · cases rest with
      | nil =>
        refine ⟨[], [], ?_⟩
        rw [show jsonBody [kv] = entryLine kv from rfl]
        simp
      | cons b r2 =>
        refine ⟨[], (",\n" ++ jsonBody (b :: r2)).toList, ?_⟩
        rw [show jsonBody (kv :: b :: r2) = entryLine kv ++ ",\n" ++ jsonBody (b :: r2) from rfl]
        rw [strToList_append, strToList_append]
        simp [List.append_assoc]
    · cases rest with
      | nil => simp at h'
      | cons b r2 =>
        obtain ⟨s, t, hst⟩ := ih h'
        refine ⟨(entryLine a ++ ",\n").toList ++ s, t, ?_⟩
        rw [show jsonBody (a :: b :: r2) = entryLine a ++ ",\n" ++ jsonBody (b :: r2) from rfl]
        rw [strToList_append, hst]
        simp [List.append_assoc]

/-- Claim C9: keys of a parse result appear in the fixed field declaration
order (a sublist of the declared key list); every record persisted by
`calculate_mean_rms` is the `json.dump` serialization of such a mapping;
and the serialized form indents every member line by exactly two spaces,
each member occurring in the output text. -/
theorem key_order_and_indent :
    (∀ s m, parse_stats_output s = .ok m →
      (m.map Prod.fst).Sublist (fields.map FieldSpec.key)) ∧
    (∀ p blob recs err, calculate_mean_rms p blob = (recs, err) →
      ∀ pr ∈ recs, ∃ m, (m.map Prod.fst).Sublist (fields.map FieldSpec.key) ∧
        pr.2 = jsonDump m) ∧
    (∀ kv : String × PyNum, ∃ t, entryLine kv = "  " ++ t) ∧
    (∀ m : List (String × PyNum), ∀ kv ∈ m, ∃ s t : List Char,
      (jsonDump m).toList = s ++ ((entryLine kv).toList ++ t)) := by
  refine ⟨?_, ?_, ?_, ?_⟩
  · intro s m h
    exact parseFields_keys s.toList fields m h
  · intro p blob recs err hcalc pr hpr
    simp only [calculate_mean_rms] at hcalc
    by_cases hlen : (pySplit SEPARATOR.toList blob.toList).length < 4
    · rw [if_pos hlen] at hcalc
      rw [Prod.mk.injEq] at hcalc
      rw [← hcalc.1] at hpr
      simp at hpr
    · rw [if_neg hlen] at hcalc
      have hfst : (writeLoop ((((pySplit SEPARATOR.toList blob.toList).drop 1).take 3).zip
          (stats_files p))).1 = recs := congrArg Prod.fst hcalc
      rw [← hfst] at hpr
      obtain ⟨m, blk, hok, hjson⟩ := writeLoop_writes _ pr hpr
      exact ⟨m, parseFields_keys blk fields m hok, hjson⟩
  · intro kv
    refine ⟨"\"" ++ (kv.1 ++ ("\": " ++ renderNum kv.2)), ?_⟩
    show "  \"" ++ kv.1 ++ "\": " ++ renderNum kv.2 = _
    simp only [show ("  \"" : String) = "  " ++ "\"" from rfl, str_append_assoc]
  · intro m kv hkv
    have hne : m.isEmpty = false := by
      cases m with
      | nil => simp at hkv
      | cons _ _ => rfl
    obtain ⟨s, t, hst⟩ := entry_occurs_body m kv hkv
    refine ⟨"\x7b\n".toList ++ s, t ++ "\n\x7d".toList, ?_⟩
    rw [jsonDump, hne]
    simp only [Bool.false_eq_true, if_false]
    rw [str_append_assoc, strToList_append, strToList_append, hst]
    simp [List.append_assoc]

/-- Claim C9 witness: the keys of a concrete parse result are a sublist of
the field declaration order. -/
theorem key_order_and_indent_witness :
    (([("Pixel sum", PyNum.int 42)] : List (String × PyNum)).map Prod.fst).Sublist
      (fields.map FieldSpec.key) :=
  key_order_and_indent.1 "Pixel sum : 42" [("Pixel sum", PyNum.int 42)] (by rfl)
